import Mathlib

/-!
Verification development for the `egg-hunt` crawler (`src/main.py`).

The Python source is shallowly embedded below.  Pure helpers
(`UrlFilterer.filter_url`, `find_eggs`, the `UrlParser.handle_starttag`
logic) become Lean functions; the crawler's mutable attributes become the
fields of `CrawlerState`, and the asyncio worker loop becomes a sequential
step function `process_one` driven by an explicit run loop.  Under asyncio,
all of `on_found_links` / `put_todo` / the bookkeeping in `process_one`
runs inside one task without any intervening `await`-suspension on shared
state, so the sequential small-step semantics here is the faithful
semantics of one worker, and set/counter updates are atomic exactly as the
single-threaded event loop makes them.

External collaborators (the `httpx` client and the stdlib
`html.parser` tokenizer) are modelled by a `World` record of functions
whose `Except` results stand for the exceptions those libraries can raise;
the crawler code itself is translated from the source.

Python `set` objects are modelled as duplicate-free lists (insertion
order; Python set iteration order is unspecified, which only permutes
queue order, not the final sets).  `defaultdict(list)` together with the
`if eggs:` guard is modelled as the association list `eggs`.

Some ghost fields are added to `CrawlerState` purely as event history:
`put_count` / `get_count` / `done_count` mirror the counters inside
`asyncio.Queue` (`join()` unblocks when `put_count = done_count`), while
`enq_log`, `getLog`, `eggWrites` record the sequence of enqueue, dequeue
and result-write events so that trace properties can be stated.  They are
write-only bookkeeping and never influence control flow.
-/

namespace EggHunt

/-! ### Characters and strings

Helper functions over `List Char`; Python's `str` operations used by the
source are reimplemented here so that everything evaluates by `rfl`. -/

/-- Whitespace for the purposes of the regex class `\S` (ASCII subset of
Python's definition). -/
def isPySpace (c : Char) : Bool :=
  c == ' ' || c == '\t' || c == '\n' || c == '\r' ||
    c == Char.ofNat 11 || c == Char.ofNat 12

/-- `str.startswith`: list-level decidable check. -/
def strStarts (s pre : String) : Bool :=
  pre.data.isPrefixOf s.data

/-! ### The marker regular expression

`EGG_REGEX = r'cdn.shopify.com\S+EGG\S+\.png'` used through
`re.findall`.  The pattern is a plain concatenation of three kinds of
atoms, embedded below with Python's leftmost, greedy backtracking
semantics: `seqRem` lists the possible remainders of a match attempt in
backtracking order (greedy first), so the head of the list is the match
Python commits to. -/

inductive Atom where
  | achar : Char → Atom
  | adot  : Atom
  | ansp  : Atom
deriving DecidableEq

/-- Remainders after `\S+` consumes one or more characters, greedy
(longest consumption) first. -/
def nsTails (s : List Char) : List (List Char) :=
  let n := (s.takeWhile (fun c => !isPySpace c)).length
  (List.range n).map (fun i => s.drop (n - i))

def atomRem : Atom → List Char → List (List Char)
  | .achar c, x :: xs => if x = c then [xs] else []
  | .achar _, [] => []
  | .adot, x :: xs => if x = '\n' then [] else [xs]
  | .adot, [] => []
  | .ansp, s => nsTails s

/-- All remainders of matching the atom sequence against `s`, in
backtracking order. -/
def seqRem : List Atom → List Char → List (List Char)
  | [], s => [s]
  | a :: as, s => ((atomRem a s).map (fun r => seqRem as r)).flatten

/-- Length of the leftmost-greedy match of the pattern at the start of
`s`, if any. -/
def matchLen (p : List Atom) (s : List Char) : Option Nat :=
  match seqRem p s with
  | [] => none
  | r :: _ => some (s.length - r.length)

/-- `re.findall`: scan left to right, emit non-overlapping matches.  The
egg pattern never matches the empty string, so the `n = 0` branch is
unreachable for it. -/
def findallAux (p : List Atom) : Nat → List Char → List (List Char)
  | 0, _ => []
  | fuel + 1, s =>
    match matchLen p s with
    | some n =>
      if n = 0 then
        match s with
        | [] => [[]]
        | _ :: xs => [] :: findallAux p fuel xs
      else
        s.take n :: findallAux p fuel (s.drop n)
    | none =>
      match s with
      | [] => []
      | _ :: xs => findallAux p fuel xs

def litAtoms (s : String) : List Atom := s.data.map Atom.achar

/-- The AST of `EGG_REGEX = r'cdn.shopify.com\S+EGG\S+\.png'` (the two
unescaped dots are the regex wildcard, `\.` is a literal dot). -/
def EGG_REGEX : List Atom :=
  litAtoms "cdn" ++ [Atom.adot] ++ litAtoms "shopify" ++ [Atom.adot] ++
    litAtoms "com" ++ [Atom.ansp] ++ litAtoms "EGG" ++ [Atom.ansp] ++
    [Atom.achar '.'] ++ litAtoms "png"

/-- `Crawler.find_eggs`: `re.findall(EGG_REGEX, text)`. -/
def find_eggs (text : String) : List String :=
  (findallAux EGG_REGEX (text.data.length + 1) text.data).map (fun l => ⟨l⟩)

/-! ### `urllib.parse` model

The source calls `urljoin`, `urldefrag`, `urlparse` and
`pathlib.Path(...).suffix`.  These stdlib collaborators are modelled on
the URL shapes the crawler actually handles (absolute http(s) URLs,
root-relative and path-relative references); dot-segment normalisation
and query-only references are out of scope of the claims. -/

/-- `urllib.parse.urldefrag(url)[0]`: everything before the first `#`. -/
def urldefrag (url : String) : String :=
  ⟨url.data.takeWhile (fun c => c != '#')⟩

/-- Split a leading `scheme:` (letters, digits, `+`, `-`, `.` before a
colon that appears before any `/`, `?` or `#`). -/
def schemeSplit (s : List Char) : Option (List Char × List Char) :=
  let pre := s.takeWhile (fun c => c != ':' && c != '/' && c != '?' && c != '#')
  match s.drop pre.length with
  | ':' :: r =>
    if pre ≠ [] ∧ pre.all (fun c => c.isAlpha || c.isDigit || c == '+' || c == '-' || c == '.') then
      some (pre, r)
    else none
  | _ => none

structure UrlParts where
  scheme : String
  netloc : String
  path : String
deriving DecidableEq

/-- `urllib.parse.urlparse`, restricted to the fields the filter reads
(scheme, netloc, path; query and fragment are split off the path). -/
def urlparse (url : String) : UrlParts :=
  let s := url.data
  let sr : List Char × List Char :=
    match schemeSplit s with
    | some (p, r) => (p.map Char.toLower, r)
    | none => ([], s)
  let nr : List Char × List Char :=
    match sr.2 with
    | '/' :: '/' :: r =>
      let n := r.takeWhile (fun c => c != '/' && c != '?' && c != '#')
      (n, r.drop n.length)
    | rest => ([], rest)
  let path := nr.2.takeWhile (fun c => c != '?' && c != '#')
  ⟨⟨sr.1⟩, ⟨nr.1⟩, ⟨path⟩⟩

/-- Final path component, after stripping trailing slashes
(`pathlib.PurePath.name`). -/
def pathName (p : List Char) : List Char :=
  ((p.reverse.dropWhile (fun c => c == '/')).takeWhile (fun c => c != '/')).reverse

/-- `pathlib.Path(path).suffix`: `name[i:]` for `i` the last dot of the
final component, provided `0 < i < len(name) - 1`. -/
def pathSuffix (p : String) : String :=
  let name := pathName p.data
  if name.all (fun c => c != '.') then "" else
    let after := name.reverse.takeWhile (fun c => c != '.')
    let i := name.length - after.length - 1
    if 0 < i ∧ i < name.length - 1 then ⟨name.drop i⟩ else ""

/-- Path up to and including the last `/` (used for relative joins). -/
def dirPart (path : List Char) : List Char :=
  (path.reverse.dropWhile (fun c => c != '/')).reverse

/-- `urllib.parse.urljoin` on the shapes that occur here: absolute URLs
pass through, `//`-references adopt the base scheme, `/`-rooted
references adopt scheme and host, and other references are joined onto
the directory of the base path. -/
def urljoin (base url : String) : String :=
  if url = "" then base
  else if (schemeSplit url.data).isSome then url
  else
    let b := urlparse base
    if strStarts url "//" then ⟨b.scheme.data ++ (':' :: url.data)⟩
    else if strStarts url "/" then
      ⟨b.scheme.data ++ "://".data ++ b.netloc.data ++ url.data⟩
    else
      let d := dirPart b.path.data
      let d' := if d = [] then ['/'] else d
      ⟨b.scheme.data ++ "://".data ++ b.netloc.data ++ d' ++ url.data⟩

/-! ### `UrlFilterer` -/

structure UrlFilterer where
  allowed_domains : Option (List String)
  allowed_schemes : Option (List String)
  allowed_filetypes : Option (List String)
deriving DecidableEq

/-- `x in allowed` with `allowed is None` meaning no restriction. -/
def allowedBy (x : String) : Option (List String) → Bool
  | none => true
  | some l => l.contains x

/-- `UrlFilterer.filter_url`.  Note the source's hardcoded branch: a
candidate starting with the literal `https://www.babycharlotte.com` is
taken verbatim — it is neither joined against `base` nor defragmented —
before the scheme/host/extension policy is applied. -/
def UrlFilterer.filter_url (f : UrlFilterer) (base url : String) : Option String :=
  let u := if strStarts url "https://www.babycharlotte.com" then url
           else urldefrag (urljoin base url)
  let parsed := urlparse u
  if !(allowedBy parsed.scheme f.allowed_schemes) then none
  else if !(allowedBy parsed.netloc f.allowed_domains) then none
  else if !(allowedBy (pathSuffix parsed.path) f.allowed_filetypes) then none
  else some u

/-! ### `UrlParser`

The stdlib tokenizer (`html.parser.HTMLParser.feed`) is external; the
repo's `UrlParser.handle_starttag` is embedded as a fold over the
start-tag events `(tag, attrs)` the tokenizer produces.
`found_links` is a Python set, modelled as add-if-absent on a list. -/

def handle_starttag (filter_url : String → String → Option String)
    (base : String) (links : List String)
    (tag : String) (attrs : List (String × String)) : List String :=
  if tag ≠ "a" then links
  else attrs.foldl (fun ls p =>
    if p.1 ≠ "href" then ls
    else match filter_url base p.2 with
      | some u => if u ∈ ls then ls else ls ++ [u]
      | none => ls) links

/-! ### External collaborators -/

structure FetchResult where
  finalUrl : String
  text : String
deriving DecidableEq

/-- The environment of one run: the `httpx` client and the HTML
tokenizer.  An `Except.error` result stands for the exception those
collaborators can raise (network failure, decode error, a parse-time
error such as `urlparse` raising `ValueError` inside the href filter). -/
structure World where
  fetch : String → Except String FetchResult
  tokenize : String → Except String (List (String × List (String × String)))

/-! ### The crawler -/

/-- Per-run configuration: the constructor arguments of `Crawler`
together with the module constant `MAX_DEPTH` (the source fixes
`MAX_DEPTH = 1`; it is a parameter here so the claims quantifying over
runs can be stated). `workers` is carried for fidelity; the sequential
semantics below is the one-worker schedule. -/
structure Config where
  filterer : UrlFilterer
  start_urls : List String
  max_depth : Nat
  workers : Nat
  limit : Nat
deriving DecidableEq

/-- The mutable attributes of `Crawler` plus ghost event history (see the
file header).  `todo` is the FIFO backing `asyncio.Queue`. -/
structure CrawlerState where
  todo : List (String × Nat)
  seen : List String
  done : List String
  total : Nat
  eggs : List (String × List String)
  put_count : Nat
  get_count : Nat
  done_count : Nat
  enq_log : List (String × Nat)
  getLog : List (String × Nat)
  eggWrites : List String
deriving DecidableEq

/-- The state of a freshly constructed `Crawler`. -/
def initState : CrawlerState :=
  ⟨[], [], [], 0, [], 0, 0, 0, [], [], []⟩

/-- `Crawler.put_todo`. -/
def put_todo (g : Config) (url : String) (depth : Nat) (s : CrawlerState) : CrawlerState :=
  if depth = g.max_depth then s
  else if g.limit ≤ s.total then s
  else { s with
    total := s.total + 1
    todo := s.todo ++ [(url, depth + 1)]
    put_count := s.put_count + 1
    enq_log := s.enq_log ++ [(url, depth + 1)] }

/-- Insert into a set-as-list if absent. -/
def addNew (ls : List String) (u : String) : List String :=
  if u ∈ ls then ls else ls ++ [u]

/-- `urls - seen` on set-as-lists: the not-yet-seen URLs, without
duplicates. -/
def newLinks (urls seen : List String) : List String :=
  (urls.filter (fun u => decide (u ∉ seen))).foldl addNew []

/-- `Crawler.on_found_links`: `new = urls - self.seen`,
`self.seen.update(new)`, then `put_todo` for each new URL.  `urls` is a
Python set; `addNew`-folding realises the set difference on lists. -/
def on_found_links (g : Config) (urls : List String) (depth : Nat)
    (s : CrawlerState) : CrawlerState :=
  let new := newLinks urls s.seen
  let s1 := { s with seen := s.seen ++ new }
  new.foldl (fun st u => put_todo g u depth st) s1

/-- `eggs[url].extend(new)` on the association list
(`defaultdict(list)`; the caller guards on `new` being non-empty). -/
def extendEggs : List (String × List String) → String → List String →
    List (String × List String)
  | [], u, n => [(u, n)]
  | (k, v) :: rest, u, n =>
    if k = u then (k, v ++ n) :: rest else (k, v) :: extendEggs rest u n

/-- `Crawler.parse_links`: feed the body to the tokenizer and fold the
repo's `handle_starttag` over the start-tag events. -/
def parse_links (w : World) (g : Config) (base text : String) :
    Except String (List String) :=
  (w.tokenize text).map (fun evts =>
    evts.foldl (fun ls e => handle_starttag (g.filterer.filter_url) base ls e.1 e.2) [])

/-- `Crawler.crawl`.  The politeness sleep has no observable effect and is
dropped.  An `Except.error` result is the exception escaping `crawl`; it
carries the state as mutated up to the raise point, exactly as Python
leaves the object's attributes. -/
def crawl (w : World) (g : Config) (url : String) (depth : Nat)
    (s : CrawlerState) : Except CrawlerState CrawlerState :=
  match w.fetch url with
  | .error _ => .error s
  | .ok r =>
    let es := find_eggs r.text
    let s1 := if es.isEmpty then s
              else { s with eggs := extendEggs s.eggs url es,
                            eggWrites := s.eggWrites ++ [url] }
    match parse_links w g r.finalUrl r.text with
    | .error _ => .error s1
    | .ok links =>
      let s2 := on_found_links g links depth s1
      .ok { s2 with done := if url ∈ s2.done then s2.done else s2.done ++ [url] }

/-- `Crawler.process_one`: `get` an item, `crawl` it inside
`try ... except Exception`, and `task_done` in the `finally`. -/
def process_one (w : World) (g : Config) (s : CrawlerState) : CrawlerState :=
  match s.todo with
  | [] => s
  | (url, depth) :: rest =>
    let s1 := { s with todo := rest, get_count := s.get_count + 1,
                       getLog := s.getLog ++ [(url, depth)] }
    let s2 := match crawl w g url depth s1 with
      | .ok t => t
      | .error t => t
    { s2 with done_count := s2.done_count + 1 }

/-- Priming in `Crawler.run`: `on_found_links(self.start_urls, 0)`. -/
def prime (g : Config) : CrawlerState :=
  on_found_links g g.start_urls 0 initState

/-- The worker loop under the one-worker schedule: keep processing while
the queue is non-empty.  `fuel` bounds the number of iterations; the
termination theorem shows `g.limit` fuel always suffices, so `run` below
is total on every world. -/
def runLoop (w : World) (g : Config) : Nat → CrawlerState → Option CrawlerState
  | 0, s => if s.todo = [] then some s else none
  | fuel + 1, s => if s.todo = [] then some s else runLoop w g fuel (process_one w g s)

/-- `Crawler.run`: prime the queue, drive workers until `join()` would
unblock (queue drained, all items marked done), then the workers are
cancelled and the final state is the result snapshot. -/
def run (w : World) (g : Config) : Option CrawlerState :=
  runLoop w g g.limit (prime g)

/-! ### Small-step relation

One step dequeues and fully processes one item (between two touches of
shared state there is no suspension point in the source, so this is the
granularity at which any interleaving can observe the state). -/

def StepRel (w : World) (g : Config) (s s' : CrawlerState) : Prop :=
  s.todo ≠ [] ∧ s' = process_one w g s

def Steps (w : World) (g : Config) : CrawlerState → CrawlerState → Prop :=
  Relation.ReflTransGen (StepRel w g)

/-- States reachable during a run of configuration `g` in world `w`. -/
def Reaches (w : World) (g : Config) (s : CrawlerState) : Prop :=
  Steps w g (prime g) s

/-! ### The run invariant -/

/-- Invariant of every state reachable during a run: the discovery cap is
respected, the queue counters are consistent (`total` counts the items
ever `put`, `task_done` has fired once per `get`), the enqueue history
splits into the processed items followed by the pending queue, no URL was
ever enqueued twice or beyond the depth bound, every enqueued URL is in
`seen`, `seen` is duplicate-free, result writes happened at most once per
processed item, and no stored match list is empty. -/
structure Inv (g : Config) (s : CrawlerState) : Prop where
  total_le : s.total ≤ g.limit
  put_total : s.put_count = s.total
  put_len : s.put_count = s.enq_log.length
  get_len : s.get_count = s.getLog.length
  done_get : s.done_count = s.get_count
  log_split : s.enq_log = s.getLog ++ s.todo
  enq_nodup : (s.enq_log.map Prod.fst).Nodup
  enq_depth : ∀ p ∈ s.enq_log, p.2 ≤ g.max_depth
  enq_seen : ∀ p ∈ s.enq_log, p.1 ∈ s.seen
  seen_nodup : s.seen.Nodup
  eggw_sub : List.Sublist s.eggWrites (s.getLog.map Prod.fst)
  eggs_ne : ∀ p ∈ s.eggs, p.2 ≠ []

/-! ### Concrete scenario data

The spec's §8 scenario: one seed page that links to a second page on the
allowed host and to an external host, and whose body contains exactly one
marker match; plus the configuration of `main()` and a world whose
tokenizer raises, for the error-path claims. -/

def p1 : String := "https://site.example/collections/all?page=1"

def p2 : String := "https://site.example/collections/all?page=2"

def extU : String := "https://other.example/page"

def eggS : String := "cdn.shopify.com/s/files/EGG_toy_600x.png"

def body1 : String := "see " ++ eggS ++ " now"

/-- The scenario's filter: `site.example` is the allowed host, with the
scheme and extension policy of `main()`. -/
def f1 : UrlFilterer :=
  ⟨some ["site.example"], some ["http", "https"], some [".html", ".php", ""]⟩

/-- seeds = {page 1}, maxDepth 1, workerCount 3, discoveryLimit 50. -/
def g1 : Config := ⟨f1, [p1], 1, 3, 50⟩

/-- Page 1 carries one marker match and anchors to page 2 (allowed) and
to the external host (rejected); page 2 is empty. -/
def w1 : World where
  fetch := fun u =>
    if u = p1 then .ok ⟨p1, body1⟩
    else if u = p2 then .ok ⟨p2, "empty"⟩
    else .error "404"
  tokenize := fun t =>
    if t = body1 then
      .ok [("a", [("href", p2)]), ("a", [("class", "x"), ("href", extU)]), ("div", [("href", "zz")])]
    else .ok []

/-- The `UrlFilterer` built in `main()`. -/
def fMain : UrlFilterer :=
  ⟨some ["babycharlotte.com", "www.babycharlotte.com"], some ["http", "https"],
   some [".html", ".php", ""]⟩

def pb : String := "https://site.example/bad"

def bodyB : String := "x cdn.shopify.com/a/EGG_b.png y"

/-- A run whose single page fetches fine (with a marker match in the
body) but whose HTML tokenizing raises. -/
def gB : Config := ⟨⟨none, none, none⟩, [pb], 5, 1, 10⟩

def wB : World where
  fetch := fun u => if u = pb then .ok ⟨pb, bodyB⟩ else .error "404"
  tokenize := fun _ => .error "bad html"

/-! ### Basic lemmas about set-as-list insertion -/

theorem mem_addNew {ls : List String} {u x : String} :
    x ∈ addNew ls u ↔ x ∈ ls ∨ x = u := by
  unfold addNew
  split
  · next h =>
      constructor
      · exact Or.inl
      · rintro (hx | rfl)
        · exact hx
        · exact h
  · simp

theorem nodup_addNew {ls : List String} {u : String} (h : ls.Nodup) :
    (addNew ls u).Nodup := by
  unfold addNew
  split
  · exact h
  · next hu => simpa [List.nodup_append, h] using hu

theorem mem_foldl_addNew (l : List String) (acc : List String) (x : String) :
    x ∈ l.foldl addNew acc ↔ x ∈ acc ∨ x ∈ l := by
  induction l generalizing acc with
  | nil => simp
  | cons a l ih =>
    simp only [List.foldl_cons, ih, mem_addNew, List.mem_cons]
    tauto

theorem nodup_foldl_addNew (l : List String) (acc : List String)
    (h : acc.Nodup) : (l.foldl addNew acc).Nodup := by
  induction l generalizing acc with
  | nil => exact h
  | cons a l ih => exact ih _ (nodup_addNew h)

theorem mem_newLinks {urls seen : List String} {x : String} :
    x ∈ newLinks urls seen ↔ x ∈ urls ∧ x ∉ seen := by
  unfold newLinks
  rw [mem_foldl_addNew]
  simp [List.mem_filter]

theorem nodup_newLinks (urls seen : List String) : (newLinks urls seen).Nodup :=
  nodup_foldl_addNew _ _ List.nodup_nil

/-! ### Specification of the admission fold

`on_found_links` runs `put_todo` over the batch of new URLs; the lemma
below describes the joint effect of that fold on a state: some sublist
`Δ` of the batch is appended to the queue at depth `d + 1`, the counters
advance by `|Δ|`, everything else is untouched, and `Δ` is empty whenever
the depth guard or the discovery cap fires. -/

theorem foldPut_spec (g : Config) (d : Nat) (l : List String) :
    ∀ t : CrawlerState,
      ∃ Δ : List (String × Nat),
        (l.foldl (fun st u => put_todo g u d st) t).todo = t.todo ++ Δ ∧
        (l.foldl (fun st u => put_todo g u d st) t).enq_log = t.enq_log ++ Δ ∧
        (l.foldl (fun st u => put_todo g u d st) t).total = t.total + Δ.length ∧
        (l.foldl (fun st u => put_todo g u d st) t).put_count = t.put_count + Δ.length ∧
        (l.foldl (fun st u => put_todo g u d st) t).seen = t.seen ∧
        (l.foldl (fun st u => put_todo g u d st) t).done = t.done ∧
        (l.foldl (fun st u => put_todo g u d st) t).eggs = t.eggs ∧
        (l.foldl (fun st u => put_todo g u d st) t).getLog = t.getLog ∧
        (l.foldl (fun st u => put_todo g u d st) t).get_count = t.get_count ∧
        (l.foldl (fun st u => put_todo g u d st) t).done_count = t.done_count ∧
        (l.foldl (fun st u => put_todo g u d st) t).eggWrites = t.eggWrites ∧
        List.Sublist (Δ.map Prod.fst) l ∧
        (∀ p ∈ Δ, p.2 = d + 1) ∧
        (d = g.max_depth → Δ = []) ∧
        (g.limit ≤ t.total → Δ = []) ∧
        t.total + Δ.length ≤ max t.total g.limit := by
  induction l with
  | nil =>
    intro t
    exact ⟨[], by simp⟩
  | cons u l ih =>
    intro t
    rw [List.foldl_cons]
    by_cases hd : d = g.max_depth
    · have hpt : put_todo g u d t = t := by simp [put_todo, hd]
      rw [hpt]
      obtain ⟨Δ, h1, h2, h3, h4, h5, h6, h7, h8, h9, h10, h11, h12, h13, h14, h15, h16⟩ := ih t
      exact ⟨Δ, h1, h2, h3, h4, h5, h6, h7, h8, h9, h10, h11,
        h12.cons u, h13, h14, h15, h16⟩
    · by_cases hc : g.limit ≤ t.total
      · have hpt : put_todo g u d t = t := by simp [put_todo, hd, hc]
        rw [hpt]
        obtain ⟨Δ, h1, h2, h3, h4, h5, h6, h7, h8, h9, h10, h11, h12, h13, h14, h15, h16⟩ := ih t
        have hΔ : Δ = [] := h15 hc
        subst hΔ
        exact ⟨[], h1, h2, h3, h4, h5, h6, h7, h8, h9, h10, h11,
          List.nil_sublist _, by simp, fun _ => rfl, fun _ => rfl, by simp⟩
      · have hpt : put_todo g u d t = { t with
            total := t.total + 1
            todo := t.todo ++ [(u, d + 1)]
            put_count := t.put_count + 1
            enq_log := t.enq_log ++ [(u, d + 1)] } := by
          simp [put_todo, hd, hc]
        rw [hpt]
        obtain ⟨Δ, h1, h2, h3, h4, h5, h6, h7, h8, h9, h10, h11, h12, h13, h14, h15, h16⟩ :=
          ih { t with
            total := t.total + 1
            todo := t.todo ++ [(u, d + 1)]
            put_count := t.put_count + 1
            enq_log := t.enq_log ++ [(u, d + 1)] }
        refine ⟨(u, d + 1) :: Δ, ?_, ?_, ?_, ?_, h5, h6, h7, h8, h9, h10, h11,
          h12.cons₂ u, ?_, ?_, ?_, ?_⟩
        · rw [h1]; simp
        · rw [h2]; simp
        · rw [h3]; dsimp only; simp only [List.length_cons]; omega
        · rw [h4]; dsimp only; simp only [List.length_cons]; omega
        · intro p hp
          rcases List.mem_cons.mp hp with h | h
          · rw [h]
          · exact h13 p h
        · intro hdd; exact absurd hdd hd
        · intro hcc; exact absurd hcc hc
        · dsimp only at h16
          have hmax : max (t.total + 1) g.limit = g.limit := Nat.max_eq_right (by omega)
          rw [hmax] at h16
          have hmax2 : max t.total g.limit = g.limit := Nat.max_eq_right (by omega)
          rw [hmax2]
          simp only [List.length_cons]
          omega

/-- `eggs[url].extend(new)` never stores an empty match list when every
existing entry is non-empty and the appended list is non-empty. -/
theorem extendEggs_ne (e : List (String × List String)) (u : String)
    (n : List String) (he : ∀ p ∈ e, p.2 ≠ []) (hn : n ≠ []) :
    ∀ p ∈ extendEggs e u n, p.2 ≠ [] := by
  induction e with
  | nil =>
    intro p hp
    rcases List.mem_singleton.mp hp with rfl
    exact hn
  | cons kv e ih =>
    unfold extendEggs
    split
    · intro p hp
      rcases List.mem_cons.mp hp with rfl | hp
      · exact fun hvn => hn (List.append_eq_nil.mp hvn).2
      · exact he p (List.mem_cons_of_mem _ hp)
    · intro p hp
      rcases List.mem_cons.mp hp with rfl | hp
      · exact he kv (List.mem_cons_self _ _)
      · exact ih (fun q hq => he q (List.mem_cons_of_mem _ hq)) p hp

/-- The joint effect of one `on_found_links` call. -/
theorem on_found_links_spec (g : Config) (urls : List String) (d : Nat)
    (s : CrawlerState) :
    ∃ Δ : List (String × Nat),
      (on_found_links g urls d s).todo = s.todo ++ Δ ∧
      (on_found_links g urls d s).enq_log = s.enq_log ++ Δ ∧
      (on_found_links g urls d s).total = s.total + Δ.length ∧
      (on_found_links g urls d s).put_count = s.put_count + Δ.length ∧
      (on_found_links g urls d s).seen = s.seen ++ newLinks urls s.seen ∧
      (on_found_links g urls d s).done = s.done ∧
      (on_found_links g urls d s).eggs = s.eggs ∧
      (on_found_links g urls d s).getLog = s.getLog ∧
      (on_found_links g urls d s).get_count = s.get_count ∧
      (on_found_links g urls d s).done_count = s.done_count ∧
      (on_found_links g urls d s).eggWrites = s.eggWrites ∧
      List.Sublist (Δ.map Prod.fst) (newLinks urls s.seen) ∧
      (∀ p ∈ Δ, p.2 = d + 1) ∧
      (d = g.max_depth → Δ = []) ∧
      (g.limit ≤ s.total → Δ = []) ∧
      s.total + Δ.length ≤ max s.total g.limit := by
  obtain ⟨Δ, h1, h2, h3, h4, h5, h6, h7, h8, h9, h10, h11, h12, h13, h14, h15, h16⟩ :=
    foldPut_spec g d (newLinks urls s.seen) { s with seen := s.seen ++ newLinks urls s.seen }
  exact ⟨Δ, h1, h2, h3, h4, h5, h6, h7, h8, h9, h10, h11, h12, h13, h14, h15, h16⟩

/-- The joint effect of one `process_one` step on a state whose queue
head is `(u, d)`: the head is dequeued and logged, `task_done` fires
exactly once (whether or not `crawl` raised), some duplicate-free batch
`ns` of previously unseen URLs joins `seen`, a sublist `Δ` of it is
enqueued at depth `d + 1` (empty when the depth guard or cap fires), at
most one result-index write happens, and written match lists stay
non-empty. -/
theorem process_one_spec (w : World) (g : Config) (u : String) (d : Nat)
    (rest : List (String × Nat)) (s : CrawlerState) (ht : s.todo = (u, d) :: rest) :
    ∃ (Δ : List (String × Nat)) (ns ew : List String),
      (process_one w g s).todo = rest ++ Δ ∧
      (process_one w g s).enq_log = s.enq_log ++ Δ ∧
      (process_one w g s).getLog = s.getLog ++ [(u, d)] ∧
      (process_one w g s).get_count = s.get_count + 1 ∧
      (process_one w g s).done_count = s.done_count + 1 ∧
      (process_one w g s).put_count = s.put_count + Δ.length ∧
      (process_one w g s).total = s.total + Δ.length ∧
      (process_one w g s).seen = s.seen ++ ns ∧
      (∀ x ∈ ns, x ∉ s.seen) ∧ ns.Nodup ∧
      List.Sublist (Δ.map Prod.fst) ns ∧
      (∀ p ∈ Δ, p.2 = d + 1) ∧
      (d = g.max_depth → Δ = []) ∧
      (g.limit ≤ s.total → Δ = []) ∧
      s.total + Δ.length ≤ max s.total g.limit ∧
      (process_one w g s).eggWrites = s.eggWrites ++ ew ∧
      List.Sublist ew [u] ∧
      ((∀ p ∈ s.eggs, p.2 ≠ []) → ∀ p ∈ (process_one w g s).eggs, p.2 ≠ []) := by
  rcases hf : w.fetch u with e | r
  · -- fetch raises: only get/getLog/done_count move
    have Heq : process_one w g s =
        { s with todo := rest, get_count := s.get_count + 1,
                 getLog := s.getLog ++ [(u, d)], done_count := s.done_count + 1 } := by
      simp [process_one, ht, crawl, hf]
    have hegg : (∀ p ∈ s.eggs, p.2 ≠ []) → ∀ p ∈ (process_one w g s).eggs, p.2 ≠ [] := by
      rw [Heq]
      exact fun he => he
    refine ⟨[], [], [], ?_, ?_, ?_, ?_, ?_, ?_, ?_, ?_, ?_, ?_, ?_, ?_, ?_, ?_, ?_, ?_,
      List.nil_sublist _, hegg⟩ <;> simp [Heq]
  · rcases htk : w.tokenize r.text with e | evts
    · -- fetch succeeded, tokenizing raises: eggs may already be written
      cases hes : (find_eggs r.text).isEmpty
      · have hne : find_eggs r.text ≠ [] := by
          intro h0
          rw [h0] at hes
          simp at hes
        have Heq : process_one w g s =
            { s with todo := rest, get_count := s.get_count + 1,
                     getLog := s.getLog ++ [(u, d)], done_count := s.done_count + 1,
                     eggs := extendEggs s.eggs u (find_eggs r.text),
                     eggWrites := s.eggWrites ++ [u] } := by
          simp [process_one, ht, crawl, hf, parse_links, htk, hes, Except.map]
        have hegg : (∀ p ∈ s.eggs, p.2 ≠ []) → ∀ p ∈ (process_one w g s).eggs, p.2 ≠ [] := by
          rw [Heq]
          exact fun he => extendEggs_ne s.eggs u (find_eggs r.text) he hne
        refine ⟨[], [], [u], ?_, ?_, ?_, ?_, ?_, ?_, ?_, ?_, ?_, ?_, ?_, ?_, ?_, ?_, ?_, ?_,
          List.Sublist.refl _, hegg⟩ <;> simp [Heq]
      · have Heq : process_one w g s =
            { s with todo := rest, get_count := s.get_count + 1,
                     getLog := s.getLog ++ [(u, d)], done_count := s.done_count + 1 } := by
          simp [process_one, ht, crawl, hf, parse_links, htk, hes, Except.map]
        have hegg : (∀ p ∈ s.eggs, p.2 ≠ []) → ∀ p ∈ (process_one w g s).eggs, p.2 ≠ [] := by
          rw [Heq]
          exact fun he => he
        refine ⟨[], [], [], ?_, ?_, ?_, ?_, ?_, ?_, ?_, ?_, ?_, ?_, ?_, ?_, ?_, ?_, ?_, ?_,
          List.nil_sublist _, hegg⟩ <;> simp [Heq]
    · -- the item is processed to completion
      cases hes : (find_eggs r.text).isEmpty
      · have hne : find_eggs r.text ≠ [] := by
          intro h0
          rw [h0] at hes
          simp at hes
        obtain ⟨Δ, h1, h2, h3, h4, h5, h6, h7, h8, h9, h10, h11, h12, h13, h14, h15, h16⟩ :=
          on_found_links_spec g
            (evts.foldl (fun ls e => handle_starttag (g.filterer.filter_url) r.finalUrl ls e.1 e.2) []) d
            { s with todo := rest, get_count := s.get_count + 1, getLog := s.getLog ++ [(u, d)], eggs := extendEggs s.eggs u (find_eggs r.text), eggWrites := s.eggWrites ++ [u] }
        have hegg : (∀ p ∈ s.eggs, p.2 ≠ []) → ∀ p ∈ (process_one w g s).eggs, p.2 ≠ [] := by
          have h7e : (process_one w g s).eggs = extendEggs s.eggs u (find_eggs r.text) := by
            simp [process_one, ht, crawl, hf, parse_links, htk, hes, Except.map, h7]
          rw [h7e]
          exact fun he => extendEggs_ne s.eggs u (find_eggs r.text) he hne
        refine ⟨Δ, newLinks
            (evts.foldl (fun ls e => handle_starttag (g.filterer.filter_url) r.finalUrl ls e.1 e.2) [])
            s.seen, [u], ?_, ?_, ?_, ?_, ?_, ?_, ?_, ?_, ?_, ?_, h12, h13, h14, h15, h16, ?_,
            List.Sublist.refl _, hegg⟩
        · simp [process_one, ht, crawl, hf, parse_links, htk, hes, Except.map, h1]
        · simp [process_one, ht, crawl, hf, parse_links, htk, hes, Except.map, h2]
        · simp [process_one, ht, crawl, hf, parse_links, htk, hes, Except.map, h8]
        · simp [process_one, ht, crawl, hf, parse_links, htk, hes, Except.map, h9]
        · simp [process_one, ht, crawl, hf, parse_links, htk, hes, Except.map, h10]
        · simp [process_one, ht, crawl, hf, parse_links, htk, hes, Except.map, h4]
        · simp [process_one, ht, crawl, hf, parse_links, htk, hes, Except.map, h3]
        · simp [process_one, ht, crawl, hf, parse_links, htk, hes, Except.map, h5]
        · intro x hx
          exact (mem_newLinks.mp hx).2
        · exact nodup_newLinks _ _
        · simp [process_one, ht, crawl, hf, parse_links, htk, hes, Except.map, h11]
      · obtain ⟨Δ, h1, h2, h3, h4, h5, h6, h7, h8, h9, h10, h11, h12, h13, h14, h15, h16⟩ :=
          on_found_links_spec g
            (evts.foldl (fun ls e => handle_starttag (g.filterer.filter_url) r.finalUrl ls e.1 e.2) []) d
            { s with todo := rest, get_count := s.get_count + 1, getLog := s.getLog ++ [(u, d)] }
        have hegg : (∀ p ∈ s.eggs, p.2 ≠ []) → ∀ p ∈ (process_one w g s).eggs, p.2 ≠ [] := by
          have h7e : (process_one w g s).eggs = s.eggs := by
            simp [process_one, ht, crawl, hf, parse_links, htk, hes, Except.map, h7]
          rw [h7e]
          exact fun he => he
        refine ⟨Δ, newLinks
            (evts.foldl (fun ls e => handle_starttag (g.filterer.filter_url) r.finalUrl ls e.1 e.2) [])
            s.seen, [], ?_, ?_, ?_, ?_, ?_, ?_, ?_, ?_, ?_, ?_, h12, h13, h14, h15, h16, ?_,
            List.nil_sublist _, hegg⟩
        · simp [process_one, ht, crawl, hf, parse_links, htk, hes, Except.map, h1]
        · simp [process_one, ht, crawl, hf, parse_links, htk, hes, Except.map, h2]
        · simp [process_one, ht, crawl, hf, parse_links, htk, hes, Except.map, h8]
        · simp [process_one, ht, crawl, hf, parse_links, htk, hes, Except.map, h9]
        · simp [process_one, ht, crawl, hf, parse_links, htk, hes, Except.map, h10]
        · simp [process_one, ht, crawl, hf, parse_links, htk, hes, Except.map, h4]
        · simp [process_one, ht, crawl, hf, parse_links, htk, hes, Except.map, h3]
        · simp [process_one, ht, crawl, hf, parse_links, htk, hes, Except.map, h5]
        · intro x hx
          exact (mem_newLinks.mp hx).2
        · exact nodup_newLinks _ _
        · simp [process_one, ht, crawl, hf, parse_links, htk, hes, Except.map, h11]

/-! ### Preservation of the run invariant -/

theorem inv_prime (g : Config) : Inv g (prime g) := by
  obtain ⟨Δ, h1, h2, h3, h4, h5, h6, h7, h8, h9, h10, h11, h12, h13, h14, h15, h16⟩ :=
    on_found_links_spec g g.start_urls 0 initState
  have hTodo : (prime g).todo = Δ := by rw [prime, h1]; rfl
  have hEnq : (prime g).enq_log = Δ := by rw [prime, h2]; rfl
  have hTotal : (prime g).total = Δ.length := by rw [prime, h3]; simp [initState]
  have hPut : (prime g).put_count = Δ.length := by rw [prime, h4]; simp [initState]
  have hSeen : (prime g).seen = newLinks g.start_urls [] := by rw [prime, h5]; rfl
  have hEggs : (prime g).eggs = [] := by rw [prime, h7]; rfl
  have hGetL : (prime g).getLog = [] := by rw [prime, h8]; rfl
  have hGet : (prime g).get_count = 0 := by rw [prime, h9]; rfl
  have hDone : (prime g).done_count = 0 := by rw [prime, h10]; rfl
  have hEw : (prime g).eggWrites = [] := by rw [prime, h11]; rfl
  have hcap : Δ.length ≤ g.limit := by
    have h16' := h16
    have h0 : initState.total = 0 := rfl
    rw [h0, Nat.max_eq_right (Nat.zero_le g.limit)] at h16'
    omega
  refine ⟨?_, ?_, ?_, ?_, ?_, ?_, ?_, ?_, ?_, ?_, ?_, ?_⟩
  · rw [hTotal]; exact hcap
  · rw [hPut, hTotal]
  · rw [hPut, hEnq]
  · rw [hGet, hGetL]; rfl
  · rw [hDone, hGet]
  · rw [hEnq, hGetL, hTodo]; rfl
  · rw [hEnq]
    exact h12.nodup (nodup_newLinks _ _)
  · rw [hEnq]
    intro p hp
    rcases Nat.eq_zero_or_pos g.max_depth with h0 | h0
    · have hΔ : Δ = [] := h14 h0.symm
      rw [hΔ] at hp
      exact absurd hp (List.not_mem_nil p)
    · rw [h13 p hp]; omega
  · rw [hEnq, hSeen]
    intro p hp
    exact h12.subset (List.mem_map_of_mem Prod.fst hp)
  · rw [hSeen]
    exact nodup_newLinks _ _
  · rw [hEw, hGetL]
    exact List.nil_sublist _
  · rw [hEggs]
    intro p hp
    exact absurd hp (List.not_mem_nil p)

theorem inv_step (w : World) (g : Config) (s : CrawlerState)
    (I : Inv g s) (hne : s.todo ≠ []) : Inv g (process_one w g s) := by
  rcases hs : s.todo with _ | ⟨⟨u, d⟩, rest⟩
  · exact absurd hs hne
  obtain ⟨Δ, ns, ew, hTodo, hEnq, hGetL, hGetc, hDonec, hPutc, hTotal, hSeen, hNs, hNsN,
    hSub, hDep, hDmax, hCap, hMax, hEggw, hEwSub, hEggC⟩ := process_one_spec w g u d rest s hs
  have hmax : max s.total g.limit = g.limit := Nat.max_eq_right I.total_le
  rw [hmax] at hMax
  have hud : (u, d) ∈ s.enq_log := by
    rw [I.log_split, hs]
    exact List.mem_append_right _ (List.mem_cons_self _ _)
  refine ⟨?_, ?_, ?_, ?_, ?_, ?_, ?_, ?_, ?_, ?_, ?_, hEggC I.eggs_ne⟩
  · rw [hTotal]; exact hMax
  · rw [hPutc, hTotal, I.put_total]
  · rw [hPutc, hEnq, I.put_len]
    simp
  · rw [hGetc, hGetL, I.get_len]
    simp
  · rw [hDonec, hGetc, I.done_get]
  · rw [hEnq, hGetL, hTodo, I.log_split, hs]
    simp
  · rw [hEnq, List.map_append]
    rw [List.nodup_append]
    refine ⟨I.enq_nodup, hSub.nodup hNsN, ?_⟩
    intro a ha hb
    have haseen : a ∈ s.seen := by
      obtain ⟨p, hp, rfl⟩ := List.mem_map.mp ha
      exact I.enq_seen p hp
    exact hNs a (hSub.subset hb) haseen
  · rw [hEnq]
    intro p hp
    rcases List.mem_append.mp hp with hp | hp
    · exact I.enq_depth p hp
    · have hdle : d ≤ g.max_depth := I.enq_depth (u, d) hud
      rcases eq_or_ne d g.max_depth with hd | hd
      · have hΔ : Δ = [] := hDmax hd
        rw [hΔ] at hp
        exact absurd hp (List.not_mem_nil p)
      · rw [hDep p hp]
        omega
  · rw [hEnq, hSeen]
    intro p hp
    rcases List.mem_append.mp hp with hp | hp
    · exact List.mem_append_left _ (I.enq_seen p hp)
    · exact List.mem_append_right _ (hSub.subset (List.mem_map_of_mem Prod.fst hp))
  · rw [hSeen, List.nodup_append]
    exact ⟨I.seen_nodup, hNsN, fun a ha hb => hNs a hb ha⟩
  · rw [hEggw, hGetL, List.map_append]
    exact I.eggw_sub.append hEwSub

theorem inv_reaches (w : World) (g : Config) (s : CrawlerState)
    (h : Reaches w g s) : Inv g s := by
  induction h with
  | refl => exact inv_prime g
  | tail hst step ih =>
    obtain ⟨hne, heq⟩ := step
    rw [heq]
    exact inv_step w g _ ih hne

/-! ### Termination of the run -/

/-- One step strictly decreases `(limit - total) + |todo|`, so that
quantity bounds the number of remaining iterations. -/
theorem runLoop_terminates (w : World) (g : Config) :
    ∀ (fuel : Nat) (s : CrawlerState), Inv g s →
      g.limit - s.total + s.todo.length ≤ fuel →
      ∃ t, runLoop w g fuel s = some t ∧ Steps w g s t ∧ t.todo = [] ∧ Inv g t := by
  intro fuel
  induction fuel with
  | zero =>
    intro s I hm
    have h0 : s.todo.length = 0 := by omega
    have he : s.todo = [] := List.length_eq_zero.mp h0
    exact ⟨s, by simp [runLoop, he], Relation.ReflTransGen.refl, he, I⟩
  | succ fuel ih =>
    intro s I hm
    by_cases he : s.todo = []
    · exact ⟨s, by simp [runLoop, he], Relation.ReflTransGen.refl, he, I⟩
    · rcases hs : s.todo with _ | ⟨⟨u, d⟩, rest⟩
      · exact absurd hs he
      obtain ⟨Δ, ns, ew, hTodo, hEnq, hGetL, hGetc, hDonec, hPutc, hTotal, hSeen, hNs, hNsN,
        hSub, hDep, hDmax, hCap, hMax, hEggw, hEwSub, hEggC⟩ := process_one_spec w g u d rest s hs
      have hmax : max s.total g.limit = g.limit := Nat.max_eq_right I.total_le
      rw [hmax] at hMax
      have I' := inv_step w g s I he
      have hm' : g.limit - (process_one w g s).total + (process_one w g s).todo.length ≤ fuel := by
        rw [hTotal, hTodo]
        have hlen : s.todo.length = rest.length + 1 := by rw [hs]; simp
        rw [List.length_append]
        omega
      obtain ⟨t, hrl, hsteps, hte, It⟩ := ih (process_one w g s) I' hm'
      refine ⟨t, ?_, Relation.ReflTransGen.head ⟨he, rfl⟩ hsteps, hte, It⟩
      rw [runLoop, if_neg he]
      exact hrl

theorem prime_measure (g : Config) :
    g.limit - (prime g).total + (prime g).todo.length ≤ g.limit := by
  obtain ⟨Δ, h1, h2, h3, h4, h5, h6, h7, h8, h9, h10, h11, h12, h13, h14, h15, h16⟩ :=
    on_found_links_spec g g.start_urls 0 initState
  have hTodo : (prime g).todo = Δ := by rw [prime, h1]; rfl
  have hTotal : (prime g).total = Δ.length := by rw [prime, h3]; simp [initState]
  have h16' := h16
  have h0 : initState.total = 0 := rfl
  rw [h0, Nat.max_eq_right (Nat.zero_le g.limit)] at h16'
  rw [hTodo, hTotal]
  omega

/-- Every run terminates: the fixed fuel `g.limit` drains the queue, and
the final state satisfies the invariant and is reachable. -/
theorem run_total (w : World) (g : Config) :
    ∃ t, run w g = some t ∧ t.todo = [] ∧ Inv g t ∧ Reaches w g t := by
  obtain ⟨t, h1, h2, h3, h4⟩ :=
    runLoop_terminates w g g.limit (prime g) (inv_prime g) (prime_measure g)
  exact ⟨t, h1, h3, h4, h2⟩

/-- A step taken while the discovery counter has reached the cap enqueues
nothing. -/
theorem steps_at_cap (w : World) (g : Config) (b c : CrawlerState)
    (hstep : StepRel w g b c) (hcap : g.limit ≤ b.total) :
    c.enq_log = b.enq_log ∧ c.total = b.total := by
  obtain ⟨hne, heq⟩ := hstep
  rcases hb : b.todo with _ | ⟨⟨u, d⟩, rest⟩
  · exact absurd hb hne
  obtain ⟨Δ, ns, ew, hTodo, hEnq, hGetL, hGetc, hDonec, hPutc, hTotal, hSeen, hNs, hNsN,
    hSub, hDep, hDmax, hCap, hMax, hEggw, hEwSub, hEggC⟩ := process_one_spec w g u d rest b hb
  have hΔ : Δ = [] := hCap hcap
  subst heq
  constructor
  · rw [hEnq, hΔ]
    simp
  · rw [hTotal, hΔ]
    simp

/-! ### The claims -/

/-- C2: no work item is ever enqueued into the frontier with depth
greater than `maxDepth`, and a batch of candidates handed to admission at
depth exactly `maxDepth` is recorded in the visited set but enqueues
nothing. -/
theorem C2_depth_bound :
    (∀ (w : World) (g : Config) (s : CrawlerState), Reaches w g s →
       ∀ p ∈ s.enq_log, p.2 ≤ g.max_depth) ∧
    (∀ (g : Config) (urls : List String) (t : CrawlerState),
       (on_found_links g urls g.max_depth t).todo = t.todo ∧
       (on_found_links g urls g.max_depth t).enq_log = t.enq_log ∧
       ∀ u ∈ urls, u ∈ (on_found_links g urls g.max_depth t).seen) := by
  constructor
  · intro w g s hr
    exact (inv_reaches w g s hr).enq_depth
  · intro g urls t
    obtain ⟨Δ, h1, h2, h3, h4, h5, h6, h7, h8, h9, h10, h11, h12, h13, h14, h15, h16⟩ :=
      on_found_links_spec g urls g.max_depth t
    have hΔ : Δ = [] := h14 rfl
    subst hΔ
    refine ⟨by rw [h1]; simp, by rw [h2]; simp, ?_⟩
    intro u hu
    rw [h5]
    by_cases hs : u ∈ t.seen
    · exact List.mem_append_left _ hs
    · exact List.mem_append_right _ (mem_newLinks.mpr ⟨hu, hs⟩)

/-- Witness for C2 at the concrete scenario: the seed item sits at depth
1 ≤ maxDepth, and admission at the boundary depth leaves the queue
untouched. -/
theorem C2_depth_bound_witness :
    ((p1, 1).2 ≤ g1.max_depth) ∧
    (on_found_links g1 [extU] g1.max_depth initState).todo = initState.todo :=
  ⟨C2_depth_bound.1 w1 g1 (prime g1) Relation.ReflTransGen.refl (p1, 1) (by decide),
   (C2_depth_bound.2 g1 [extU] initState).1⟩

/-- C3: the discovery counter counts exactly the URLs ever admitted, it
never exceeds the configured limit, and once it has reached the limit no
further URL is enqueued for the rest of the run. -/
theorem C3_discovery_cap :
    ∀ (w : World) (g : Config) (s : CrawlerState), Reaches w g s →
      s.total ≤ g.limit ∧ s.total = s.enq_log.length ∧
      ∀ s', Steps w g s s' → g.limit ≤ s.total →
        s'.enq_log = s.enq_log ∧ s'.total = s.total := by
  intro w g s hr
  have I := inv_reaches w g s hr
  refine ⟨I.total_le, by rw [← I.put_total, I.put_len], ?_⟩
  intro s' hsteps hcap
  induction hsteps with
  | refl => exact ⟨rfl, rfl⟩
  | tail hab hbc ih =>
    obtain ⟨he, ht⟩ := ih
    have hcapb : g.limit ≤ _ := ht ▸ hcap
    obtain ⟨he2, ht2⟩ := steps_at_cap w g _ _ hbc hcapb
    exact ⟨he2.trans he, ht2.trans ht⟩

/-- Witness for C3 at the primed scenario state. -/
theorem C3_discovery_cap_witness :
    (prime g1).total ≤ g1.limit ∧ (prime g1).total = (prime g1).enq_log.length :=
  ⟨(C3_discovery_cap w1 g1 (prime g1) Relation.ReflTransGen.refl).1,
   (C3_discovery_cap w1 g1 (prime g1) Relation.ReflTransGen.refl).2.1⟩

/-- C4: in every reachable state the visited set holds each URL at most
once, and the enqueue history holds each URL at most once — a URL is
admitted into the frontier at most once per run.  (The check-and-insert
is a single atomic step here because `on_found_links` contains no
suspension point under asyncio's single-threaded scheduling.) -/
theorem C4_dedup :
    ∀ (w : World) (g : Config) (s : CrawlerState), Reaches w g s →
      s.seen.Nodup ∧ (s.enq_log.map Prod.fst).Nodup := by
  intro w g s hr
  exact ⟨(inv_reaches w g s hr).seen_nodup, (inv_reaches w g s hr).enq_nodup⟩

/-- Witness for C4 at the primed scenario state. -/
theorem C4_dedup_witness :
    (prime g1).seen.Nodup ∧ ((prime g1).enq_log.map Prod.fst).Nodup :=
  C4_dedup w1 g1 (prime g1) Relation.ReflTransGen.refl

/-- C9: the result index is written at most once per URL (the write log
is duplicate-free), and every stored entry has a non-empty match list. -/
theorem C9_result_index :
    ∀ (w : World) (g : Config) (s : CrawlerState), Reaches w g s →
      s.eggWrites.Nodup ∧ ∀ p ∈ s.eggs, p.2 ≠ [] := by
  intro w g s hr
  have I := inv_reaches w g s hr
  have hgl : (s.getLog.map Prod.fst).Nodup := by
    have hn := I.enq_nodup
    rw [I.log_split, List.map_append] at hn
    exact (List.nodup_append.mp hn).1
  exact ⟨I.eggw_sub.nodup hgl, I.eggs_ne⟩

/-- Witness for C9 at the primed scenario state. -/
theorem C9_result_index_witness :
    (prime g1).eggWrites.Nodup ∧ ∀ p ∈ (prime g1).eggs, p.2 ≠ [] :=
  C9_result_index w1 g1 (prime g1) Relation.ReflTransGen.refl

/-- C10: the marker matcher and the URL filter are deterministic — they
are functions of the page body, respectively of the `(base, candidate)`
pair and the filter configuration, with no hidden state, so any two
invocations on identical inputs return identical results. -/
theorem C10_determinism :
    (∀ t₁ t₂ : String, t₁ = t₂ → find_eggs t₁ = find_eggs t₂) ∧
    (∀ (f : UrlFilterer) (b₁ b₂ u₁ u₂ : String), b₁ = b₂ → u₁ = u₂ →
       f.filter_url b₁ u₁ = f.filter_url b₂ u₂) := by
  constructor
  · intro t₁ t₂ h
    rw [h]
  · intro f b₁ b₂ u₁ u₂ hb hu
    rw [hb, hu]

/-- Witness for C10 on the scenario page body and link pair. -/
theorem C10_determinism_witness :
    find_eggs body1 = find_eggs body1 ∧
    f1.filter_url p1 p2 = f1.filter_url p1 p2 :=
  ⟨C10_determinism.1 body1 body1 rfl, C10_determinism.2 f1 p1 p1 p2 p2 rfl rfl⟩

/-- C5: the run drives the frontier until `join()` unblocks — every run
returns a final state with an empty queue in which every item ever put
has been marked done (only then are the workers cancelled, which is the
structure of `run`), and in any reachable state the `join()` condition
`put_count = done_count` holds exactly when additionally the queue is
empty, i.e. every admitted item has been both retrieved and marked done.
Termination needs no acyclicity: dedup plus the discovery cap bound the
work. -/
theorem C5_completion :
    (∀ (w : World) (g : Config), ∃ t, run w g = some t ∧ t.todo = [] ∧
       t.put_count = t.done_count) ∧
    (∀ (w : World) (g : Config) (s : CrawlerState), Reaches w g s →
       (s.put_count = s.done_count ↔ s.put_count = s.done_count ∧ s.todo = [])) := by
  constructor
  · intro w g
    obtain ⟨t, hrun, hte, I, hreach⟩ := run_total w g
    refine ⟨t, hrun, hte, ?_⟩
    have h1 : t.put_count = t.getLog.length := by
      rw [I.put_len, I.log_split, hte]
      simp
    rw [h1, ← I.get_len, I.done_get]
  · intro w g s hr
    have I := inv_reaches w g s hr
    constructor
    · intro hpd
      refine ⟨hpd, ?_⟩
      have h1 : s.enq_log.length = s.getLog.length + s.todo.length := by
        rw [I.log_split]
        simp
      have h2 : s.put_count = s.enq_log.length := I.put_len
      have h3 : s.done_count = s.getLog.length := by rw [I.done_get, I.get_len]
      have h4 : s.todo.length = 0 := by omega
      exact List.length_eq_zero.mp h4
    · exact And.left

/-- Witness for C5: the scenario run reaches the join barrier, and the
join condition at the primed state. -/
theorem C5_completion_witness :
    (∃ t, run w1 g1 = some t ∧ t.todo = [] ∧ t.put_count = t.done_count) ∧
    ((prime g1).put_count = (prime g1).done_count ↔
       (prime g1).put_count = (prime g1).done_count ∧ (prime g1).todo = []) :=
  ⟨C5_completion.1 w1 g1, C5_completion.2 w1 g1 (prime g1) Relation.ReflTransGen.refl⟩

/-- Counterexample to C7 as stated: the work item created for the seed of
the scenario run carries depth 1, not depth 0 — `put_todo` enqueues
`(url, depth + 1)` and the seeds are admitted at discovery depth 0. -/
theorem C7_counterexample :
    (prime g1).enq_log = [(p1, 1)] ∧ (1 : Nat) ≠ 0 :=
  ⟨rfl, by decide⟩

/-- C7 (amended): every work item records the discovery depth plus one:
seed items are enqueued with depth 0 + 1, and each item enqueued while
processing an item of depth `d` carries depth `d + 1` (parent item depth
plus one). -/
theorem C7_depth_assignment :
    (∀ g : Config, ∀ p ∈ (prime g).enq_log, p.2 = 0 + 1) ∧
    (∀ (w : World) (g : Config) (u : String) (d : Nat) (rest : List (String × Nat))
       (s : CrawlerState), s.todo = (u, d) :: rest →
       ∃ Δ, (process_one w g s).enq_log = s.enq_log ++ Δ ∧ ∀ p ∈ Δ, p.2 = d + 1) := by
  constructor
  · intro g p hp
    obtain ⟨Δ, h1, h2, h3, h4, h5, h6, h7, h8, h9, h10, h11, h12, h13, h14, h15, h16⟩ :=
      on_found_links_spec g g.start_urls 0 initState
    have hEnq : (prime g).enq_log = Δ := by rw [prime, h2]; rfl
    rw [hEnq] at hp
    exact h13 p hp
  · intro w g u d rest s ht
    obtain ⟨Δ, ns, ew, hTodo, hEnq, hGetL, hGetc, hDonec, hPutc, hTotal, hSeen, hNs, hNsN,
      hSub, hDep, hDmax, hCap, hMax, hEggw, hEwSub, hEggC⟩ := process_one_spec w g u d rest s ht
    exact ⟨Δ, hEnq, hDep⟩

/-- Witness for C7 (amended) at the scenario seed and its processing
step. -/
theorem C7_depth_assignment_witness :
    ((p1, 1).2 = 0 + 1) ∧
    (∃ Δ, (process_one w1 g1 (prime g1)).enq_log = (prime g1).enq_log ++ Δ ∧
       ∀ p ∈ Δ, p.2 = 1 + 1) :=
  ⟨C7_depth_assignment.1 g1 (p1, 1) (by decide),
   C7_depth_assignment.2 w1 g1 p1 1 [] (prime g1) (by rfl)⟩

/-- Counterexample to C6 as stated: in the run of `wB`/`gB` the only
page fetches successfully (its body holds one marker match) but HTML
parsing raises; the item is still marked done (`done_count = 1`) and the
URL is absent from the done set, yet — contrary to the claim — its
matches were already recorded, so the result index does hold an entry
for the failed URL. -/
theorem C6_counterexample :
    (run wB gB).map (fun s => (s.eggs, s.done, s.done_count)) =
      some ([(pb, ["cdn.shopify.com/a/EGG_b.png"])], [], 1) := by
  rfl

/-- C6 (amended): an error during fetch or parse is contained at the item
level — `task_done` still fires and the URL never enters the done set;
the result index is untouched when the fetch itself fails, but when the
failure happens during parsing (after a successful fetch) the page's
marker matches have already been recorded in the result index.  The run
continues either way (termination is C5). -/
theorem C6_fault_containment :
    ∀ (w : World) (g : Config) (u : String) (d : Nat)
      (rest : List (String × Nat)) (s : CrawlerState), s.todo = (u, d) :: rest →
      (∀ e, w.fetch u = Except.error e →
         process_one w g s = { s with todo := rest, get_count := s.get_count + 1,
                                      getLog := s.getLog ++ [(u, d)],
                                      done_count := s.done_count + 1 }) ∧
      (∀ r e, w.fetch u = Except.ok r → w.tokenize r.text = Except.error e →
         (process_one w g s).done = s.done ∧
         (process_one w g s).done_count = s.done_count + 1 ∧
         (process_one w g s).seen = s.seen ∧
         (process_one w g s).todo = rest ∧
         (process_one w g s).eggs = (if (find_eggs r.text).isEmpty then s.eggs
                                     else extendEggs s.eggs u (find_eggs r.text))) := by
  intro w g u d rest s ht
  constructor
  · intro e hf
    simp [process_one, ht, crawl, hf]
  · intro r e hf htk
    cases hes : (find_eggs r.text).isEmpty <;>
      refine ⟨?_, ?_, ?_, ?_, ?_⟩ <;>
      simp [process_one, ht, crawl, hf, parse_links, htk, hes, Except.map]

/-- Witness for C6 (amended): the parse-failure clause evaluated on the
concrete failing run. -/
theorem C6_fault_containment_witness :
    (process_one wB gB (prime gB)).done = (prime gB).done ∧
    (process_one wB gB (prime gB)).done_count = (prime gB).done_count + 1 ∧
    (process_one wB gB (prime gB)).seen = (prime gB).seen ∧
    (process_one wB gB (prime gB)).todo = [] ∧
    (process_one wB gB (prime gB)).eggs =
      (if (find_eggs (FetchResult.mk pb bodyB).text).isEmpty then (prime gB).eggs
       else extendEggs (prime gB).eggs pb (find_eggs (FetchResult.mk pb bodyB).text)) :=
  (C6_fault_containment wB gB pb 1 [] (prime gB) (by rfl)).2 ⟨pb, bodyB⟩ "bad html"
    (by rfl) (by rfl)

/-- Counterexample to C1 as stated: in the scenario run the done set is
exactly {page 1} — page 2, discovered at the boundary depth, is never
fetched, so "done contains both" fails on the code. -/
theorem C1_counterexample :
    (run w1 g1).map (fun s => s.done) = some [p1] ∧ p2 ∉ [p1] :=
  ⟨rfl, by decide⟩

/-- C1 (amended): in the scenario run, visited is exactly {page 1,
page 2}, done is exactly {page 1} (page 2 is recorded as visited but,
being discovered at depth = maxDepth, is never enqueued or fetched), the
result index maps page 1 to exactly one marker match, the queue drains,
only page 1 was ever enqueued (at depth 1), and the external URL appears
in no returned collection. -/
theorem C1_scenario :
    (run w1 g1).map (fun s => (s.seen, s.done, s.eggs, s.todo, s.enq_log)) =
      some ([p1, p2], [p1], [(p1, [eggS])], [], [(p1, 1)]) ∧
    extU ∉ [p1, p2] :=
  ⟨rfl, by decide⟩

/-- Fragment stripping really removes every `#`. -/
theorem urldefrag_no_hash (s : String) : '#' ∉ (urldefrag s).data := by
  intro h
  have h' : '#' ∈ s.data.takeWhile (fun c => c != '#') := h
  have h2 := List.mem_takeWhile_imp h'
  simp at h2

/-- Counterexample to C8 as stated: a candidate starting with the
hardcoded literal `https://www.babycharlotte.com` bypasses resolution and
fragment stripping, so the filter of `main()` accepts a URL that still
carries a fragment. -/
theorem C8_counterexample :
    fMain.filter_url "https://www.babycharlotte.com/"
        "https://www.babycharlotte.com/page#frag" =
      some "https://www.babycharlotte.com/page#frag" ∧
    '#' ∈ "https://www.babycharlotte.com/page#frag".data :=
  ⟨rfl, by decide⟩

/-- C8 (amended): every accepted URL satisfies the scheme/host/extension
policy; a candidate that does not start with the hardcoded
`https://www.babycharlotte.com` literal is resolved against the base,
has its fragment stripped, and the accepted result contains no `#`;
a candidate starting with that literal is returned verbatim (and may
retain a fragment, as the counterexample shows). -/
theorem C8_filter_policy :
    ∀ (f : UrlFilterer) (base url r : String),
      f.filter_url base url = some r →
      (allowedBy (urlparse r).scheme f.allowed_schemes = true ∧
       allowedBy (urlparse r).netloc f.allowed_domains = true ∧
       allowedBy (pathSuffix (urlparse r).path) f.allowed_filetypes = true) ∧
      (strStarts url "https://www.babycharlotte.com" = true → r = url) ∧
      (strStarts url "https://www.babycharlotte.com" = false →
         r = urldefrag (urljoin base url) ∧ '#' ∉ r.data) := by
  intro f base url r h
  by_cases hb : strStarts url "https://www.babycharlotte.com" = true
  · simp only [UrlFilterer.filter_url, hb, if_true] at h
    split at h
    · exact absurd h (by simp)
    next hc1 =>
      split at h
      · exact absurd h (by simp)
      next hc2 =>
        split at h
        · exact absurd h (by simp)
        next hc3 =>
          rw [Option.some.injEq] at h
          subst h
          simp at hc1 hc2 hc3
          refine ⟨⟨hc1, hc2, hc3⟩, fun _ => rfl, fun hxq => ?_⟩
          rw [hb] at hxq
          exact absurd hxq (by simp)
  · have hb' : strStarts url "https://www.babycharlotte.com" = false :=
      Bool.not_eq_true _ ▸ hb
    simp only [UrlFilterer.filter_url, hb', Bool.false_eq_true, if_false] at h
    split at h
    · exact absurd h (by simp)
    next hc1 =>
      split at h
      · exact absurd h (by simp)
      next hc2 =>
        split at h
        · exact absurd h (by simp)
        next hc3 =>
          rw [Option.some.injEq] at h
          subst h
          simp at hc1 hc2 hc3
          refine ⟨⟨hc1, hc2, hc3⟩, fun hxr => ?_, fun _ => ⟨rfl, urldefrag_no_hash _⟩⟩
          rw [hb'] at hxr
          exact absurd hxr (by simp)

/-- Witness for C8 (amended) on the scenario's accepted page-2 link. -/
theorem C8_filter_policy_witness :
    (allowedBy (urlparse p2).scheme f1.allowed_schemes = true ∧
     allowedBy (urlparse p2).netloc f1.allowed_domains = true ∧
     allowedBy (pathSuffix (urlparse p2).path) f1.allowed_filetypes = true) ∧
    (strStarts p2 "https://www.babycharlotte.com" = true → p2 = p2) ∧
    (strStarts p2 "https://www.babycharlotte.com" = false →
       p2 = urldefrag (urljoin p1 p2) ∧ '#' ∉ p2.data) :=
  C8_filter_policy f1 p1 p2 p2 rfl

end EggHunt
